import Mathlib

/-!
Shallow embedding of `src/app/app.component.ts` (the flow-response →
spreadsheet flattening engine).  JavaScript values reachable from a parsed
JSON payload are modelled by `Json`; the platform primitives are modelled as
follows:

* `JSON.parse` is a runtime primitive; a string-valued `content` field is
  modelled by the `Option Json` that `JSON.parse` returns on it
  (`ContentVal.jstr none` is a string that is not valid JSON,
  e.g. `"{not json"`).  A thrown exception is an `Except.error`.
* `TextEncoder.encode` / `TextDecoder('utf-8', fatal).decode` are modelled by
  a concrete UTF-8 encoder/decoder over byte lists (`utf8Encode`,
  `utf8Decode`).  JS strings are modelled by Lean `String` (sequences of
  Unicode scalar values; lone surrogates are not representable).
* `String.prototype.split` is modelled by `jsSplitChar` / `splitPipe`.
* Property lookup (`obj[k]`, `obj?.k`) is own-property lookup; properties
  inherited from `Object.prototype` and `for..in` index enumeration over
  non-object primitives are not modelled (such a value contributes no keys).
* JS numbers are modelled as integers; fractional literals are outside the
  model (no claim depends on them).
-/

mutual
/-- A JSON-decoded JavaScript value.  Arrays and objects carry their own
spine types (a mutual inductive family) so that recursion over values is
structural. -/
inductive Json where
  | null : Json
  | bool : Bool → Json
  | num : Int → Json
  | str : String → Json
  | arr : JsonList → Json
  | obj : JsonFields → Json

inductive JsonList where
  | nil : JsonList
  | cons : Json → JsonList → JsonList

inductive JsonFields where
  | nil : JsonFields
  | cons : String → Json → JsonFields → JsonFields
end

def JsonList.ofList : List Json → JsonList
  | [] => JsonList.nil
  | j :: rest => JsonList.cons j (JsonList.ofList rest)

def JsonList.toList : JsonList → List Json
  | JsonList.nil => []
  | JsonList.cons j rest => j :: rest.toList

def JsonFields.ofList : List (String × Json) → JsonFields
  | [] => JsonFields.nil
  | (k, v) :: rest => JsonFields.cons k v (JsonFields.ofList rest)

def JsonFields.toList : JsonFields → List (String × Json)
  | JsonFields.nil => []
  | JsonFields.cons k v rest => (k, v) :: rest.toList

/-- Convenience constructor: a JSON object from a field list. -/
def jobj (l : List (String × Json)) : Json := Json.obj (JsonFields.ofList l)

/-- Convenience constructor: a JSON array from an element list. -/
def jarr (l : List Json) : Json := Json.arr (JsonList.ofList l)

/-- JS truthiness of a value (`v ? _ : _`, `v || _`). -/
def jsTruthy : Json → Bool
  | Json.null => false
  | Json.bool b => b
  | Json.num n => n != 0
  | Json.str s => s != ""
  | Json.arr _ => true
  | Json.obj _ => true

mutual
/-- JS `String(v)` / template-literal coercion of a value. -/
def jsToString : Json → String
  | Json.null => "null"
  | Json.bool true => "true"
  | Json.bool false => "false"
  | Json.num n => toString n
  | Json.str s => s
  | Json.arr xs => jsArrAux xs
  | Json.obj _ => "[object Object]"

/-- `Array.prototype.toString` = `join(",")`; `null`/`undefined` elements
become the empty string. -/
def jsArrAux : JsonList → String
  | JsonList.nil => ""
  | JsonList.cons Json.null JsonList.nil => ""
  | JsonList.cons j JsonList.nil => jsToString j
  | JsonList.cons Json.null rest => "," ++ jsArrAux rest
  | JsonList.cons j rest => jsToString j ++ "," ++ jsArrAux rest
end

/-- JS `===` comparison of an array element against a string (SameValueZero
with a string right-hand side: only an identical string compares equal). -/
def jsStrEq (j : Json) (s : String) : Bool :=
  match j with
  | Json.str t => t == s
  | _ => false

/-- `Array.prototype.includes(s)` for a string `s`. -/
def jsIncludesStr (xs : List Json) (s : String) : Bool :=
  xs.any (fun j => jsStrEq j s)

/-- The `content` attribute of a raw record: either a JS string (modelled by
the result `JSON.parse` yields on it) or an already-structured value. -/
inductive ContentVal where
  | jstr : Option Json → ContentVal
  | jval : Json → ContentVal

/-- One input row as loaded from the uploaded file. -/
structure RawRecord where
  messageId : String
  contactId : String
  messageDate : String
  sendType : String
  content : ContentVal

/-- Exceptions the export functions can throw. -/
inductive JsError where
  | parseError : JsError
  | dateError : JsError
deriving DecidableEq

/-- `typeof row.content === 'string' ? JSON.parse(row.content) : row.content`;
a `JSON.parse` throw is an `Except.error`. -/
def parseContent : ContentVal → Except JsError Json
  | ContentVal.jstr none => Except.error JsError.parseError
  | ContentVal.jstr (some j) => Except.ok j
  | ContentVal.jval j => Except.ok j

/-- Own-property access `v?.name` (non-objects have no own properties). -/
def getField : Json → String → Option Json
  | Json.obj fields, name => fields.toList.lookup name
  | _, _ => none

/-- `contentObj?.eventParameters?.flowResponse || {}` followed by `for..in`
enumeration: the field list of the flow-response object (empty when absent,
falsy, or not an object). -/
def extractFlowResponse (contentObj : Json) : List (String × Json) :=
  match getField contentObj "eventParameters" with
  | some ep =>
    match getField ep "flowResponse" with
    | some (Json.obj fields) => fields.toList
    | _ => []
  | none => []

/-- `contentObj?.body || {}` in `exportToExcel2`. -/
def extractBody (contentObj : Json) : Json :=
  match getField contentObj "body" with
  | some b => if jsTruthy b then b else jobj []
  | none => jobj []

/-- UTF-8 encoding of one Unicode scalar value (byte values as naturals). -/
def utf8EncodeCharNat (n : Nat) : List Nat :=
  if n < 0x80 then [n]
  else if n < 0x800 then [0xC0 + n / 64, 0x80 + n % 64]
  else if n < 0x10000 then
    [0xE0 + n / 4096, 0x80 + n / 64 % 64, 0x80 + n % 64]
  else
    [0xF0 + n / 262144, 0x80 + n / 4096 % 64, 0x80 + n / 64 % 64, 0x80 + n % 64]

/-- `TextEncoder.encode`: UTF-8 bytes of a string's scalar values. -/
def utf8Encode : List Char → List Nat
  | [] => []
  | c :: cs => utf8EncodeCharNat c.toNat ++ utf8Encode cs

/-- Decoding of one UTF-8 sequence from the front of a byte list: the code
point and the remaining bytes, `none` on a malformed sequence (continuation
errors, overlong forms, surrogates, out-of-range code points). -/
def utf8DecodeOne (l : List Nat) : Option (Nat × List Nat) :=
  l[0]?.bind (fun b =>
    if b < 0x80 then some (b, l.drop 1)
    else if b < 0xC2 then none
    else if b < 0xE0 then
      l[1]?.bind (fun b1 =>
        if 0x80 ≤ b1 ∧ b1 < 0xC0 then some ((b - 0xC0) * 64 + (b1 - 0x80), l.drop 2)
        else none)
    else if b < 0xF0 then
      l[1]?.bind (fun b1 => l[2]?.bind (fun b2 =>
        if 0x80 ≤ b1 ∧ b1 < 0xC0 ∧ 0x80 ≤ b2 ∧ b2 < 0xC0 ∧
            0x800 ≤ (b - 0xE0) * 4096 + (b1 - 0x80) * 64 + (b2 - 0x80) ∧
            ((b - 0xE0) * 4096 + (b1 - 0x80) * 64 + (b2 - 0x80) < 0xD800 ∨
              0xE000 ≤ (b - 0xE0) * 4096 + (b1 - 0x80) * 64 + (b2 - 0x80)) then
          some ((b - 0xE0) * 4096 + (b1 - 0x80) * 64 + (b2 - 0x80), l.drop 3)
        else none))
    else if b < 0xF5 then
      l[1]?.bind (fun b1 => l[2]?.bind (fun b2 => l[3]?.bind (fun b3 =>
        if 0x80 ≤ b1 ∧ b1 < 0xC0 ∧ 0x80 ≤ b2 ∧ b2 < 0xC0 ∧ 0x80 ≤ b3 ∧ b3 < 0xC0 ∧
            0x10000 ≤ (b - 0xF0) * 262144 + (b1 - 0x80) * 4096 + (b2 - 0x80) * 64 + (b3 - 0x80) ∧
            (b - 0xF0) * 262144 + (b1 - 0x80) * 4096 + (b2 - 0x80) * 64 + (b3 - 0x80) < 0x110000 then
          some ((b - 0xF0) * 262144 + (b1 - 0x80) * 4096 + (b2 - 0x80) * 64 + (b3 - 0x80),
            l.drop 4)
        else none)))
    else none)

/-- Iterated decoding; the fuel argument only bounds the recursion and is
never exhausted when it is at least the byte count (every sequence consumes
at least one byte). -/
def utf8DecodeLoop : Nat → List Nat → Option (List Char)
  | _, [] => some []
  | 0, _ :: _ => none
  | Nat.succ fuel, b :: bs =>
    match utf8DecodeOne (b :: bs) with
    | some (n, rest) => (utf8DecodeLoop fuel rest).map (fun cs => Char.ofNat n :: cs)
    | none => none

/-- `TextDecoder('utf-8', fatal: true).decode`: strict UTF-8 decoding,
`none` on a decode error (the thrown `TypeError`). -/
def utf8Decode (l : List Nat) : Option (List Char) :=
  utf8DecodeLoop l.length l

/-- `corregirCodificacion`: encode the text as UTF-8 and decode it back with
a fatal decoder, returning the text unchanged when decoding throws. -/
def corregirCodificacion (texto : String) : String :=
  match utf8Decode (utf8Encode texto.data) with
  | some cs => String.mk cs
  | none => texto

/-- JS `String.prototype.split(sep)` for a one-character separator, at the
character-list level. -/
def jsSplitChar (sep : Char) : List Char → List (List Char)
  | [] => [[]]
  | c :: cs =>
    let r := jsSplitChar sep cs
    if c = sep then [] :: r else (c :: r.headD []) :: r.tail

def startsWithSep : List Char → Bool
  | c1 :: c2 :: c3 :: _ => c1 = ' ' && c2 = '|' && c3 = ' '
  | _ => false

def hasSep : List Char → Bool
  | [] => false
  | c :: cs => startsWithSep (c :: cs) || hasSep cs

def splitPipeF (fuel : Nat) (l : List Char) : List (List Char) :=
  match l with
  | [] => [[]]
  | c :: cs =>
    match fuel with
    | 0 => [[]]
    | Nat.succ f =>
      if startsWithSep (c :: cs) then [] :: splitPipeF f (cs.drop 2)
      else
        match splitPipeF f cs with
        | [] => [[]]
        | h :: t => (c :: h) :: t

/-- JS `str.split(" | ")` at the character-list level (leftmost-match
scanning); the fuel is the string length, which is never exhausted. -/
def splitPipe (l : List Char) : List (List Char) := splitPipeF l.length l

/-- The date handling of both exports:
`let [fecha, hora] = row.messageDate.split('T'); hora = hora.split('+')[0]`.
When the split yields no second element, `hora` is `undefined` and
`hora.split` throws a `TypeError` (modelled as `Except.error .dateError`). -/
def splitDate (messageDate : String) : Except JsError (String × String) :=
  let parts := jsSplitChar 'T' messageDate.data
  match parts[1]? with
  | none => Except.error JsError.dateError
  | some hora =>
    Except.ok (String.mk (parts.headD []), String.mk ((jsSplitChar '+' hora).headD []))

/-- The headers contributed by one field of a flow-response object: the key
itself (`headers.add(key)`), then, for an array value, one
`` `${key} | ${item}` `` entry per element. -/
def fieldHeaders (k : String) (v : Json) : List String :=
  k :: (match v with
    | Json.arr xs => xs.toList.map (fun item => k ++ " | " ++ jsToString item)
    | _ => [])

/-- All headers contributed by one record's flow-response map, in `for..in`
plus element order. -/
def rowHeaders (fr : List (String × Json)) : List String :=
  fr.foldr (fun kv acc => fieldHeaders kv.1 kv.2 ++ acc) []

/-- `Set.prototype.add`: append when not already present. -/
def addHeader (hs : List String) (h : String) : List String :=
  if h ∈ hs then hs else hs ++ [h]

def addAll (hs : List String) (l : List String) : List String :=
  l.foldl addHeader hs

/-- The first pass of `exportToExcel` (`this.data.forEach(...)` building the
`headers` set): parses every record's content in order — a `JSON.parse`
throw aborts the pass — and accumulates the header set in insertion order. -/
def collectAux (acc : List String) : List RawRecord → Except JsError (List String)
  | [] => Except.ok acc
  | r :: rs =>
    match parseContent r.content with
    | Except.error e => Except.error e
    | Except.ok j => collectAux (addAll acc (rowHeaders (extractFlowResponse j))) rs

def collectHeaders (data : List RawRecord) : Except JsError (List String) :=
  collectAux [] data

/-- Lexicographic comparison of character lists by code point (the model of
the JS default sort comparator; JS compares UTF-16 code units, which agrees
except on the relative order of astral-plane versus some BMP characters —
no claim depends on that difference). -/
def charListLe : List Char → List Char → Bool
  | [], _ => true
  | _ :: _, [] => false
  | a :: as, b :: bs => if a < b then true else if b < a then false else charListLe as bs

def strLe (a b : String) : Bool := charListLe a.data b.data

/-- `Array.from(headers).sort()`: the default-comparator sort of the header
set (modelled by insertion sort — any sort agreeing with the comparator
produces the same list). -/
def sortHeaders (hs : List String) : List String :=
  List.insertionSort (fun a b => strLe a b = true) hs

/-- A row object: JS objects are key-to-value maps in insertion order. -/
abbrev Row := List (String × String)

/-- JS property assignment `row[k] = v`: overwrite in place, else append. -/
def jsSet (row : Row) (k v : String) : Row :=
  if row.any (fun p => p.1 == k) then
    row.map (fun p => if p.1 == k then (k, v) else p)
  else row ++ [(k, v)]

/-- The per-header write of `exportToExcel`: decode the header, split it on
`" | "`, and either write the indicator cell (key `arrayItem`, value `"X"`
iff the flow-response list contains the item) or the scalar cell (key
`baseKey`, the normalized truthy value or `""`).  Returns the written
(key, value) pair. -/
def cellWrite (fr : List (String × Json)) (header : String) : String × String :=
  let decoded := corregirCodificacion header
  match (splitPipe decoded.data).map (fun l => String.mk l) with
  | baseKey :: arrayItem :: _ =>
    if arrayItem ≠ "" then
      (arrayItem,
        match fr.lookup baseKey with
        | some (Json.arr xs) => if jsIncludesStr xs.toList arrayItem then "X" else ""
        | _ => "")
    else
      (baseKey,
        match fr.lookup baseKey with
        | some v => if jsTruthy v then corregirCodificacion (jsToString v) else ""
        | none => "")
  | [baseKey] =>
    (baseKey,
      match fr.lookup baseKey with
      | some v => if jsTruthy v then corregirCodificacion (jsToString v) else ""
      | none => "")
  | [] => ("", "")

/-- The fixed leading cells of a `formattedRow`. -/
def fixedRow (r : RawRecord) (fecha hora : String) : Row :=
  [("messageId", r.messageId), ("telefono", r.contactId), ("fecha", fecha), ("hora", hora)]

/-- The `formattedRow` built for one record against the ordered headers. -/
def buildRow (r : RawRecord) (fecha hora : String) (headers : List String)
    (fr : List (String × Json)) : Row :=
  headers.foldl (fun row h => jsSet row (cellWrite fr h).1 (cellWrite fr h).2)
    (fixedRow r fecha hora)

/-- The second-pass body of `exportToExcel` for one record: re-parse the
content, split the date (both can throw), and build the row. -/
def projectRow (headers : List String) (r : RawRecord) : Except JsError Row :=
  match parseContent r.content with
  | Except.error e => Except.error e
  | Except.ok j =>
    match splitDate r.messageDate with
    | Except.error e => Except.error e
    | Except.ok (fecha, hora) =>
      Except.ok (buildRow r fecha hora headers (extractFlowResponse j))

/-- `Array.prototype.map` with a callback that can throw: left-to-right, the
first throw aborts. -/
def mapEx (f : RawRecord → Except JsError α) : List RawRecord → Except JsError (List α)
  | [] => Except.ok []
  | r :: rs =>
    match f r with
    | Except.error e => Except.error e
    | Except.ok a =>
      match mapEx f rs with
      | Except.error e => Except.error e
      | Except.ok as => Except.ok (a :: as)

/-- `exportToExcel`: discovery pass over all records, sort of the header
set, then projection of every record; the result is the ordered header list
plus the rows handed to the workbook writer. -/
def exportToExcel (data : List RawRecord) : Except JsError (List String × List Row) :=
  match collectHeaders data with
  | Except.error e => Except.error e
  | Except.ok hs =>
    match mapEx (projectRow (sortHeaders hs)) data with
    | Except.error e => Except.error e
    | Except.ok rows => Except.ok (sortHeaders hs, rows)

/-- A `formattedRow` of `exportToExcel2` (the free-text export). -/
structure Row2 where
  messageId : String
  telefono : String
  fecha : String
  hora : String
  mensaje : Json
  send : String

/-- The `exportToExcel2` mapping for one record: parse, split the date, and
set `mensaje` to the corrected body when it is a string, the raw
(`body || {}`) value otherwise. -/
def projectRow2 (r : RawRecord) : Except JsError Row2 :=
  match parseContent r.content with
  | Except.error e => Except.error e
  | Except.ok j =>
    match splitDate r.messageDate with
    | Except.error e => Except.error e
    | Except.ok (fecha, hora) =>
      Except.ok
        { messageId := r.messageId
          telefono := r.contactId
          fecha := fecha
          hora := hora
          mensaje :=
            match extractBody j with
            | Json.str s => Json.str (corregirCodificacion s)
            | v => v
          send := r.sendType }

/-- The JS regular-expression whitespace class (`\s`). -/
def jsWhitespaceChar (ch : Char) : Bool :=
  ch = '\t' ∨ ch = '\n' ∨ ch = Char.ofNat 0x0B ∨ ch = Char.ofNat 0x0C ∨ ch = '\r' ∨
    ch = ' ' ∨ ch = Char.ofNat 0xA0 ∨ ch = Char.ofNat 0x1680 ∨
    (Char.ofNat 0x2000 ≤ ch ∧ ch ≤ Char.ofNat 0x200A) ∨ ch = Char.ofNat 0x2028 ∨
    ch = Char.ofNat 0x2029 ∨ ch = Char.ofNat 0x202F ∨ ch = Char.ofNat 0x205F ∨
    ch = Char.ofNat 0x3000 ∨ ch = Char.ofNat 0xFEFF

/-- `/\S/.test(v)`: coerce the value to a string and look for a
non-whitespace character. -/
def regexSTest (j : Json) : Bool :=
  (jsToString j).data.any (fun ch => ! jsWhitespaceChar ch)

/-- The first filter of `exportToExcel2`. -/
def keep1 (d : Row2) : Bool :=
  regexSTest d.mensaje && (d.send == "input")

/-- The second filter of `exportToExcel2` (`typeof d.mensaje == 'string'`). -/
def keep2 (d : Row2) : Bool :=
  match d.mensaje with
  | Json.str _ => true
  | _ => false

/-- A trailing numeric timezone-offset suffix (`+HH:MM` or `-HH:MM`), as in
the spec sentence about the time component.  Claim-side definition: this
formalizes the words of the specification, to be compared with the code's
behavior. -/
def tzOffsetPattern : List Char → Bool
  | [s, d1, d2, c, d3, d4] =>
    (s = '+' || s = '-') && d1.isDigit && d2.isDigit && c = ':' && d3.isDigit && d4.isDigit
  | _ => false

/-- Strip a trailing timezone offset suffix from a time string.  Claim-side
definition following the spec's words ("the time component has any trailing
timezone offset suffix stripped"). -/
def specStripTZ (s : String) : String :=
  if tzOffsetPattern (s.data.drop (s.data.length - 6)) then
    String.mk (s.data.take (s.data.length - 6))
  else s

/-- `exportToExcel2`: map every record (throws propagate), then apply the
two filters; the surviving rows are handed to the workbook writer. -/
def exportToExcel2 (data : List RawRecord) : Except JsError (List Row2) :=
  match mapEx projectRow2 data with
  | Except.error e => Except.error e
  | Except.ok rows => Except.ok ((rows.filter keep1).filter keep2)

theorem utf8EncodeCharNat_length_pos (n : Nat) : 1 ≤ (utf8EncodeCharNat n).length := by
  rw [utf8EncodeCharNat]
  split
  · simp
  · split
    · simp
    · split <;> simp

theorem utf8DecodeOne_encodeChar (n : Nat) (h : n.isValidChar) (rest : List Nat) :
    utf8DecodeOne (utf8EncodeCharNat n ++ rest) = some (n, rest) := by
  have h' : n < 0xD800 ∨ (0xDFFF < n ∧ n < 0x110000) := h
  by_cases h1 : n < 0x80
  · have henc : utf8EncodeCharNat n = [n] := by rw [utf8EncodeCharNat, if_pos h1]
    rw [henc]
    show utf8DecodeOne (n :: rest) = some (n, rest)
    rw [utf8DecodeOne]
    simp only [List.getElem?_cons_zero, Option.some_bind, List.drop_succ_cons, List.drop_zero]
    rw [if_pos h1]
  · by_cases h2 : n < 0x800
    · have e1 : ¬ (0xC0 + n / 64 < 0x80) := by omega
      have e2 : ¬ (0xC0 + n / 64 < 0xC2) := by omega
      have e3 : 0xC0 + n / 64 < 0xE0 := by omega
      have e4 : 0x80 ≤ 0x80 + n % 64 ∧ 0x80 + n % 64 < 0xC0 := by omega
      have e5 : (0xC0 + n / 64 - 0xC0) * 64 + (0x80 + n % 64 - 0x80) = n := by omega
      have henc : utf8EncodeCharNat n = [0xC0 + n / 64, 0x80 + n % 64] := by
        rw [utf8EncodeCharNat, if_neg h1, if_pos h2]
      rw [henc]
      show utf8DecodeOne ((0xC0 + n / 64) :: (0x80 + n % 64) :: rest) = some (n, rest)
      rw [utf8DecodeOne]
      simp only [List.getElem?_cons_zero, List.getElem?_cons_succ, Option.some_bind,
        List.drop_succ_cons, List.drop_zero]
      rw [if_neg e1, if_neg e2, if_pos e3, if_pos e4, e5]
    · by_cases h3 : n < 0x10000
      · have e1 : ¬ (0xE0 + n / 4096 < 0x80) := by omega
        have e2 : ¬ (0xE0 + n / 4096 < 0xC2) := by omega
        have e3 : ¬ (0xE0 + n / 4096 < 0xE0) := by omega
        have e4 : 0xE0 + n / 4096 < 0xF0 := by omega
        have e5 : (0xE0 + n / 4096 - 0xE0) * 4096 + (0x80 + n / 64 % 64 - 0x80) * 64 +
            (0x80 + n % 64 - 0x80) = n := by omega
        have henc : utf8EncodeCharNat n =
            [0xE0 + n / 4096, 0x80 + n / 64 % 64, 0x80 + n % 64] := by
          rw [utf8EncodeCharNat, if_neg h1, if_neg h2, if_pos h3]
        rw [henc]
        show utf8DecodeOne ((0xE0 + n / 4096) :: (0x80 + n / 64 % 64) :: (0x80 + n % 64) :: rest) =
          some (n, rest)
        rw [utf8DecodeOne]
        simp only [List.getElem?_cons_zero, List.getElem?_cons_succ, Option.some_bind,
          List.drop_succ_cons, List.drop_zero]
        rw [if_neg e1, if_neg e2, if_neg e3, if_pos e4, e5,
          if_pos ⟨by omega, by omega, by omega, by omega, by omega, by omega⟩]
      · have e1 : ¬ (0xF0 + n / 262144 < 0x80) := by omega
        have e2 : ¬ (0xF0 + n / 262144 < 0xC2) := by omega
        have e3 : ¬ (0xF0 + n / 262144 < 0xE0) := by omega
        have e4 : ¬ (0xF0 + n / 262144 < 0xF0) := by omega
        have e5 : 0xF0 + n / 262144 < 0xF5 := by omega
        have e6 : (0xF0 + n / 262144 - 0xF0) * 262144 + (0x80 + n / 4096 % 64 - 0x80) * 4096 +
            (0x80 + n / 64 % 64 - 0x80) * 64 + (0x80 + n % 64 - 0x80) = n := by omega
        have henc : utf8EncodeCharNat n =
            [0xF0 + n / 262144, 0x80 + n / 4096 % 64, 0x80 + n / 64 % 64, 0x80 + n % 64] := by
          rw [utf8EncodeCharNat, if_neg h1, if_neg h2, if_neg h3]
        rw [henc]
        show utf8DecodeOne ((0xF0 + n / 262144) :: (0x80 + n / 4096 % 64) ::
          (0x80 + n / 64 % 64) :: (0x80 + n % 64) :: rest) = some (n, rest)
        rw [utf8DecodeOne]
        simp only [List.getElem?_cons_zero, List.getElem?_cons_succ, Option.some_bind,
          List.drop_succ_cons, List.drop_zero]
        rw [if_neg e1, if_neg e2, if_neg e3, if_neg e4, if_pos e5, e6,
          if_pos ⟨by omega, by omega, by omega, by omega, by omega, by omega, by omega, by omega⟩]

theorem utf8DecodeLoop_encode (cs : List Char) :
    ∀ fuel, (utf8Encode cs).length ≤ fuel → utf8DecodeLoop fuel (utf8Encode cs) = some cs := by
  induction cs with
  | nil => intro fuel _; cases fuel <;> rfl
  | cons c cs ih =>
    intro fuel hf
    have hv : c.toNat.isValidChar := c.valid
    have hone := utf8DecodeOne_encodeChar c.toNat hv (utf8Encode cs)
    have hpos := utf8EncodeCharNat_length_pos c.toNat
    rcases hE : utf8EncodeCharNat c.toNat with _ | ⟨b, tail⟩
    · rw [hE] at hpos; simp at hpos
    · rw [utf8Encode] at hf ⊢
      rw [hE] at hf hone ⊢
      simp only [List.cons_append] at hf hone ⊢
      rcases fuel with _ | fuel
      · simp at hf
      · rw [utf8DecodeLoop, hone]
        show (utf8DecodeLoop fuel (utf8Encode cs)).map (fun l => Char.ofNat c.toNat :: l) =
          some (c :: cs)
        have hlen : (utf8Encode cs).length ≤ fuel := by
          simp only [List.length_cons, List.length_append] at hf
          omega
        rw [ih fuel hlen, Char.ofNat_toNat]
        rfl

theorem utf8Decode_utf8Encode (cs : List Char) : utf8Decode (utf8Encode cs) = some cs :=
  utf8DecodeLoop_encode cs (utf8Encode cs).length le_rfl

theorem corregir_eq_id (s : String) : corregirCodificacion s = s := by
  rw [corregirCodificacion, utf8Decode_utf8Encode]

theorem jsSplitChar_ne_nil (sep : Char) (l : List Char) : jsSplitChar sep l ≠ [] := by
  cases l with
  | nil => simp [jsSplitChar]
  | cons c cs =>
    rw [jsSplitChar]
    split <;> simp

theorem jsSplitChar_head (sep : Char) (l : List Char) :
    (jsSplitChar sep l).headD [] = l.takeWhile (fun c => c ≠ sep) := by
  induction l with
  | nil => rfl
  | cons c cs ih =>
    rw [jsSplitChar]
    by_cases hc : c = sep
    · simp [hc, List.takeWhile_cons]
    · simp only [if_neg hc, List.headD_cons, List.takeWhile_cons]
      simp [hc] at ih ⊢
      exact ih

theorem jsSplitChar_second (sep : Char) (l : List Char) :
    (jsSplitChar sep l)[1]? =
      if sep ∈ l then
        some (((l.dropWhile (fun c => c ≠ sep)).drop 1).takeWhile (fun c => c ≠ sep))
      else none := by
  induction l with
  | nil => rfl
  | cons c cs ih =>
    rw [jsSplitChar]
    by_cases hc : c = sep
    · simp only [if_pos hc]
      have hmem : sep ∈ c :: cs := by rw [hc]; exact List.mem_cons_self _ _
      rw [if_pos hmem]
      have hdw : (c :: cs).dropWhile (fun x => x ≠ sep) = c :: cs := by
        rw [List.dropWhile_cons]
        simp [hc]
      rw [hdw]
      simp only [List.drop_succ_cons, List.drop_zero]
      rcases hS : jsSplitChar sep cs with _ | ⟨h0, t⟩
      · exact absurd hS (jsSplitChar_ne_nil sep cs)
      · have hh := jsSplitChar_head sep cs
        rw [hS] at hh
        simp only [List.headD_cons] at hh
        simp [hh]
    · simp only [if_neg hc]
      have hdw : (c :: cs).dropWhile (fun x => x ≠ sep) = cs.dropWhile (fun x => x ≠ sep) := by
        rw [List.dropWhile_cons]
        simp [hc]
      have hmem : (sep ∈ c :: cs) ↔ (sep ∈ cs) := by
        simp only [List.mem_cons, or_iff_right_iff_imp]
        intro he
        exact absurd he.symm hc
      rw [hdw]
      simp only [hmem]
      rcases hS : jsSplitChar sep cs with _ | ⟨h0, t⟩
      · exact absurd hS (jsSplitChar_ne_nil sep cs)
      · rw [hS] at ih
        simpa using ih

theorem startsWithSep_iff (l : List Char) :
    startsWithSep l = true ↔ ∃ rest, l = ' ' :: '|' :: ' ' :: rest := by
  rcases l with _ | ⟨c1, _ | ⟨c2, _ | ⟨c3, r⟩⟩⟩
  · simp [startsWithSep]
  · simp [startsWithSep]
  · simp [startsWithSep]
  · constructor
    · intro h
      simp only [startsWithSep, Bool.and_eq_true, decide_eq_true_eq] at h
      exact ⟨r, by rw [h.1.1, h.1.2, h.2]⟩
    · rintro ⟨rest, hrest⟩
      simp only [List.cons.injEq] at hrest
      simp only [startsWithSep, Bool.and_eq_true, decide_eq_true_eq]
      exact ⟨⟨hrest.1, hrest.2.1⟩, hrest.2.2.1⟩

theorem startsWithSep_append (l m : List Char) (h : startsWithSep l = true) :
    startsWithSep (l ++ m) = true := by
  rcases (startsWithSep_iff l).mp h with ⟨rest, hrest⟩
  subst hrest
  simp [startsWithSep]

theorem hasSep_append_false (l m : List Char) (h : hasSep (l ++ m) = false) :
    hasSep l = false := by
  induction l with
  | nil => rfl
  | cons c cs ih =>
    rw [List.cons_append, hasSep] at h
    rw [hasSep]
    simp only [Bool.or_eq_false_iff] at h ⊢
    refine ⟨?_, ih h.2⟩
    by_contra hsw
    have hsw' : startsWithSep (c :: cs) = true := by
      cases hx : startsWithSep (c :: cs)
      · exact absurd hx hsw
      · rfl
    have hap := startsWithSep_append (c :: cs) m hsw'
    rw [List.cons_append] at hap
    rw [hap] at h
    exact absurd h.1 (by simp)

theorem splitPipeF_irrel (n : Nat) : ∀ (l : List Char) (f1 f2 : Nat), l.length ≤ n →
    l.length ≤ f1 → l.length ≤ f2 → splitPipeF f1 l = splitPipeF f2 l := by
  induction n with
  | zero =>
    intro l f1 f2 hn _ _
    rcases l with _ | ⟨c, cs⟩
    · cases f1 <;> cases f2 <;> rfl
    · simp at hn
  | succ n ih =>
    intro l f1 f2 hn h1 h2
    rcases l with _ | ⟨c, cs⟩
    · cases f1 <;> cases f2 <;> rfl
    · simp only [List.length_cons] at hn h1 h2
      rcases f1 with _ | f1
      · omega
      rcases f2 with _ | f2
      · omega
      show (if startsWithSep (c :: cs) then [] :: splitPipeF f1 (cs.drop 2)
          else match splitPipeF f1 cs with
            | [] => [[]]
            | h :: t => (c :: h) :: t) =
        (if startsWithSep (c :: cs) then [] :: splitPipeF f2 (cs.drop 2)
          else match splitPipeF f2 cs with
            | [] => [[]]
            | h :: t => (c :: h) :: t)
      by_cases hs : startsWithSep (c :: cs) = true
      · rw [if_pos hs, if_pos hs,
          ih (cs.drop 2) f1 f2 (by simp only [List.length_drop]; omega)
            (by simp only [List.length_drop]; omega) (by simp only [List.length_drop]; omega)]
      · rw [if_neg hs, if_neg hs, ih cs f1 f2 (by omega) (by omega) (by omega)]

theorem splitPipe_nil : splitPipe [] = [[]] := rfl

theorem splitPipe_cons (c : Char) (cs : List Char) :
    splitPipe (c :: cs) =
      if startsWithSep (c :: cs) = true then [] :: splitPipe (cs.drop 2)
      else match splitPipe cs with | [] => [[]] | h :: t => (c :: h) :: t := by
  show (if startsWithSep (c :: cs) then [] :: splitPipeF cs.length (cs.drop 2)
      else match splitPipeF cs.length cs with
        | [] => [[]]
        | h :: t => (c :: h) :: t) = _
  by_cases hs : startsWithSep (c :: cs) = true
  · rw [if_pos hs, if_pos hs,
      splitPipeF_irrel cs.length (cs.drop 2) cs.length (cs.drop 2).length
        (by simp only [List.length_drop]; omega) (by simp only [List.length_drop]; omega)
        le_rfl]
    rfl
  · rw [if_neg hs, if_neg hs]
    rfl

theorem splitPipe_ne_nil (l : List Char) : splitPipe l ≠ [] := by
  rcases l with _ | ⟨c, cs⟩
  · rw [splitPipe_nil]
    simp
  · rw [splitPipe_cons]
    split
    · simp
    · split <;> simp

theorem splitPipe_no_sep (l : List Char) (h : hasSep l = false) : splitPipe l = [l] := by
  induction l with
  | nil => exact splitPipe_nil
  | cons c cs ih =>
    rw [hasSep, Bool.or_eq_false_iff] at h
    rw [splitPipe_cons, if_neg (by simp [h.1]), ih h.2]

theorem splitPipe_sep_append (k v : List Char) (hk : hasSep (k ++ [' ']) = false) :
    splitPipe (k ++ ' ' :: '|' :: ' ' :: v) = k :: splitPipe v := by
  induction k with
  | nil =>
    rw [List.nil_append, splitPipe_cons, if_pos (by simp [startsWithSep])]
    simp
  | cons c k' ih =>
    have hk' : hasSep (k' ++ [' ']) = false := by
      rw [List.cons_append, hasSep, Bool.or_eq_false_iff] at hk
      exact hk.2
    have hsw : startsWithSep (c :: (k' ++ ' ' :: '|' :: ' ' :: v)) = false := by
      cases hx : startsWithSep (c :: (k' ++ ' ' :: '|' :: ' ' :: v))
      · rfl
      · exfalso
        rcases (startsWithSep_iff _).mp hx with ⟨rest, hrest⟩
        simp only [List.cons.injEq] at hrest
        have hc : c = ' ' := hrest.1
        rcases k' with _ | ⟨x, _ | ⟨y, k''⟩⟩
        · simp at hrest
        · simp only [List.cons_append, List.nil_append, List.cons.injEq] at hrest
          have hx' : x = '|' := hrest.2.1
          rw [List.cons_append, hasSep] at hk
          simp [startsWithSep, hc, hx'] at hk
        · simp only [List.cons_append, List.cons.injEq] at hrest
          have hx' : x = '|' := hrest.2.1
          have hy' : y = ' ' := hrest.2.2.1
          rw [List.cons_append, hasSep] at hk
          simp [startsWithSep, hc, hx', hy'] at hk
    rw [List.cons_append, splitPipe_cons, if_neg (by simp [hsw]), ih hk']

theorem charListLe_total (as bs : List Char) : charListLe as bs = true ∨ charListLe bs as = true := by
  induction as generalizing bs with
  | nil => left; rfl
  | cons a as ih =>
    cases bs with
    | nil => right; rfl
    | cons b bs =>
      rcases lt_trichotomy a b with h | h | h
      · left
        rw [charListLe, if_pos h]
      · subst h
        rw [charListLe, if_neg (lt_irrefl a), if_neg (lt_irrefl a),
          charListLe, if_neg (lt_irrefl a), if_neg (lt_irrefl a)]
        exact ih bs
      · right
        rw [charListLe, if_pos h]

theorem charListLe_trans (as bs cs : List Char) (h1 : charListLe as bs = true)
    (h2 : charListLe bs cs = true) : charListLe as cs = true := by
  induction as generalizing bs cs with
  | nil => rfl
  | cons a as ih =>
    cases bs with
    | nil => exact absurd h1 (by rw [charListLe]; simp)
    | cons b bs =>
      cases cs with
      | nil => exact absurd h2 (by rw [charListLe]; simp)
      | cons c cs =>
        rw [charListLe] at h1 h2 ⊢
        rcases lt_trichotomy a b with hab | hab | hab
        · rcases lt_trichotomy b c with hbc | hbc | hbc
          · rw [if_pos (lt_trans hab hbc)]
          · subst hbc
            rw [if_pos hab]
          · rw [if_neg (lt_asymm hbc), if_pos hbc] at h2
            exact absurd h2 (by simp)
        · subst hab
          rw [if_neg (lt_irrefl a), if_neg (lt_irrefl a)] at h1
          rcases lt_trichotomy a c with hac | hac | hac
          · rw [if_pos hac]
          · subst hac
            rw [if_neg (lt_irrefl a), if_neg (lt_irrefl a)] at h2 ⊢
            exact ih bs cs h1 h2
          · rw [if_neg (lt_asymm hac), if_pos hac] at h2
            exact absurd h2 (by simp)
        · rw [if_neg (lt_asymm hab), if_pos hab] at h1
          exact absurd h1 (by simp)

theorem charListLe_antisymm (as bs : List Char) (h1 : charListLe as bs = true)
    (h2 : charListLe bs as = true) : as = bs := by
  induction as generalizing bs with
  | nil =>
    cases bs with
    | nil => rfl
    | cons b bs => exact absurd h2 (by rw [charListLe]; simp)
  | cons a as ih =>
    cases bs with
    | nil => exact absurd h1 (by rw [charListLe]; simp)
    | cons b bs =>
      rw [charListLe] at h1 h2
      rcases lt_trichotomy a b with hab | hab | hab
      · rw [if_neg (lt_asymm hab), if_pos hab] at h2
        exact absurd h2 (by simp)
      · subst hab
        rw [if_neg (lt_irrefl a), if_neg (lt_irrefl a)] at h1 h2
        rw [ih bs h1 h2]
      · rw [if_neg (lt_asymm hab), if_pos hab] at h1
        exact absurd h1 (by simp)

theorem sortHeaders_perm (hs : List String) : (sortHeaders hs).Perm hs :=
  List.perm_insertionSort _ hs

theorem sortHeaders_sorted (hs : List String) :
    List.Sorted (fun a b => strLe a b = true) (sortHeaders hs) := by
  haveI : IsTotal String (fun a b => strLe a b = true) :=
    ⟨fun a b => charListLe_total a.data b.data⟩
  haveI : IsTrans String (fun a b => strLe a b = true) :=
    ⟨fun _ _ _ h1 h2 => charListLe_trans _ _ _ h1 h2⟩
  exact List.sorted_insertionSort _ hs

theorem sortHeaders_eq_of_perm (hs hs' : List String) (h : hs.Perm hs') :
    sortHeaders hs = sortHeaders hs' := by
  haveI : IsAntisymm String (fun a b => strLe a b = true) :=
    ⟨fun a b h1 h2 => by
      cases a with
      | mk da =>
        cases b with
        | mk db => rw [charListLe_antisymm da db h1 h2]⟩
  have hp : (sortHeaders hs).Perm (sortHeaders hs') :=
    ((sortHeaders_perm hs).trans h).trans (sortHeaders_perm hs').symm
  exact List.eq_of_perm_of_sorted hp (sortHeaders_sorted hs) (sortHeaders_sorted hs')

theorem String.mk_data (s : String) : String.mk s.data = s := rfl

theorem jsStrEq_iff (j : Json) (v : String) : jsStrEq j v = true ↔ j = Json.str v := by
  cases j <;> simp [jsStrEq]

theorem jsIncludesStr_iff (xs : List Json) (v : String) :
    jsIncludesStr xs v = true ↔ Json.str v ∈ xs := by
  rw [jsIncludesStr, List.any_eq_true]
  constructor
  · rintro ⟨j, hj, he⟩
    rw [(jsStrEq_iff j v).mp he] at hj
    exact hj
  · intro h
    exact ⟨Json.str v, h, (jsStrEq_iff _ v).mpr rfl⟩

theorem keys_jsSet (row : Row) (k v a : String) :
    a ∈ (jsSet row k v).map Prod.fst ↔ a = k ∨ a ∈ row.map Prod.fst := by
  rw [jsSet]
  by_cases h : row.any (fun p => p.1 == k) = true
  · rw [if_pos h]
    have hmapeq : (row.map (fun p => if p.1 == k then (k, v) else p)).map Prod.fst =
        row.map Prod.fst := by
      rw [List.map_map]
      apply List.map_congr_left
      intro p _
      by_cases hp : p.1 == k
      · simp only [Function.comp_apply, if_pos hp]
        exact (eq_of_beq hp).symm
      · simp only [Function.comp_apply, if_neg hp]
    rw [hmapeq]
    constructor
    · exact Or.inr
    · rintro (rfl | hm)
      · rcases List.any_eq_true.mp h with ⟨p, hp, he⟩
        rw [← eq_of_beq he]
        exact List.mem_map_of_mem Prod.fst hp
      · exact hm
  · rw [if_neg h]
    simp [or_comm]

theorem foldl_jsSet_keys (fr : List (String × Json)) (headers : List String) (row0 : Row)
    (a : String) :
    a ∈ ((headers.foldl (fun row h => jsSet row (cellWrite fr h).1 (cellWrite fr h).2)
        row0).map Prod.fst) ↔
      a ∈ row0.map Prod.fst ∨ ∃ h ∈ headers, (cellWrite fr h).1 = a := by
  induction headers generalizing row0 with
  | nil => simp
  | cons h hs ih =>
    rw [List.foldl_cons, ih, keys_jsSet]
    simp only [List.mem_cons]
    constructor
    · rintro ((rfl | hm) | ⟨h', hh', he⟩)
      · exact Or.inr ⟨h, Or.inl rfl, rfl⟩
      · exact Or.inl hm
      · exact Or.inr ⟨h', Or.inr hh', he⟩
    · rintro (hm | ⟨h', (rfl | hh'), he⟩)
      · exact Or.inl (Or.inr hm)
      · exact Or.inl (Or.inl he.symm)
      · exact Or.inr ⟨h', hh', he⟩

theorem buildRow_keys (r : RawRecord) (fecha hora : String) (headers : List String)
    (fr : List (String × Json)) (a : String) :
    a ∈ (buildRow r fecha hora headers fr).map Prod.fst ↔
      a ∈ ["messageId", "telefono", "fecha", "hora"] ∨
        ∃ h ∈ headers, (cellWrite fr h).1 = a := by
  rw [buildRow, foldl_jsSet_keys]
  rfl

theorem addHeader_mem (hs : List String) (h a : String) :
    a ∈ addHeader hs h ↔ a ∈ hs ∨ a = h := by
  rw [addHeader]
  split
  · rename_i hmem
    constructor
    · exact Or.inl
    · rintro (ha | rfl)
      · exact ha
      · exact hmem
  · simp

theorem addHeader_nodup (hs : List String) (h : String) (hn : hs.Nodup) :
    (addHeader hs h).Nodup := by
  rw [addHeader]
  split
  · exact hn
  · rename_i hmem
    rw [← List.concat_eq_append]
    exact List.Nodup.concat hmem hn

theorem addAll_mem (l : List String) (hs : List String) (a : String) :
    a ∈ addAll hs l ↔ a ∈ hs ∨ a ∈ l := by
  induction l generalizing hs with
  | nil => simp [addAll]
  | cons x xs ih =>
    have hstep : addAll hs (x :: xs) = addAll (addHeader hs x) xs := rfl
    rw [hstep, ih, addHeader_mem]
    simp only [List.mem_cons]
    tauto

theorem addAll_nodup (l : List String) (hs : List String) (hn : hs.Nodup) :
    (addAll hs l).Nodup := by
  induction l generalizing hs with
  | nil => exact hn
  | cons x xs ih =>
    rw [addAll, List.foldl_cons]
    exact ih _ (addHeader_nodup hs x hn)

theorem collectAux_mem (data : List RawRecord) (acc hs : List String)
    (hcol : collectAux acc data = Except.ok hs) (a : String) :
    a ∈ hs ↔ a ∈ acc ∨ ∃ r ∈ data, ∃ j, parseContent r.content = Except.ok j ∧
      a ∈ rowHeaders (extractFlowResponse j) := by
  induction data generalizing acc with
  | nil =>
    rw [collectAux] at hcol
    cases hcol
    simp
  | cons r rs ih =>
    rw [collectAux] at hcol
    rcases hp : parseContent r.content with e | j
    · rw [hp] at hcol
      cases hcol
    · rw [hp] at hcol
      rw [ih _ hcol, addAll_mem]
      simp only [List.mem_cons]
      constructor
      · rintro ((ha | hrh) | ⟨r', hr', j', hj', hm⟩)
        · exact Or.inl ha
        · exact Or.inr ⟨r, Or.inl rfl, j, hp, hrh⟩
        · exact Or.inr ⟨r', Or.inr hr', j', hj', hm⟩
      · rintro (ha | ⟨r', (rfl | hr'), j', hj', hm⟩)
        · exact Or.inl (Or.inl ha)
        · rw [hp] at hj'
          cases hj'
          exact Or.inl (Or.inr hm)
        · exact Or.inr ⟨r', hr', j', hj', hm⟩

theorem collectAux_nodup (data : List RawRecord) (acc hs : List String) (hn : acc.Nodup)
    (hcol : collectAux acc data = Except.ok hs) : hs.Nodup := by
  induction data generalizing acc with
  | nil =>
    rw [collectAux] at hcol
    cases hcol
    exact hn
  | cons r rs ih =>
    rw [collectAux] at hcol
    rcases hp : parseContent r.content with e | j
    · rw [hp] at hcol
      cases hcol
    · rw [hp] at hcol
      exact ih _ (addAll_nodup _ _ hn) hcol

theorem collectAux_parse_of_ok (data : List RawRecord) (acc hs : List String)
    (hcol : collectAux acc data = Except.ok hs) :
    ∀ r ∈ data, ∃ j, parseContent r.content = Except.ok j := by
  induction data generalizing acc with
  | nil => intro r hr; cases hr
  | cons r rs ih =>
    rw [collectAux] at hcol
    rcases hp : parseContent r.content with e | j
    · rw [hp] at hcol
      cases hcol
    · rw [hp] at hcol
      intro r' hr'
      rcases List.mem_cons.mp hr' with rfl | hr'
      · exact ⟨j, hp⟩
      · exact ih _ hcol r' hr'

theorem collectAux_ok_of_parse (data : List RawRecord) (acc : List String)
    (hp : ∀ r ∈ data, ∃ j, parseContent r.content = Except.ok j) :
    ∃ hs, collectAux acc data = Except.ok hs := by
  induction data generalizing acc with
  | nil => exact ⟨acc, rfl⟩
  | cons r rs ih =>
    rcases hp r (List.mem_cons_self r rs) with ⟨j, hj⟩
    rw [collectAux, hj]
    exact ih _ (fun r' hr' => hp r' (List.mem_cons_of_mem r hr'))

theorem mapEx_ok_forall {α : Type} (f : RawRecord → Except JsError α) (data : List RawRecord)
    (out : List α) (h : mapEx f data = Except.ok out) :
    ∀ r ∈ data, ∃ b, f r = Except.ok b := by
  induction data generalizing out with
  | nil => intro r hr; cases hr
  | cons r rs ih =>
    rw [mapEx] at h
    rcases hf : f r with e | b
    · rw [hf] at h
      cases h
    · rw [hf] at h
      rcases hm : mapEx f rs with e | bs
      · rw [hm] at h
        cases h
      · intro r' hr'
        rcases List.mem_cons.mp hr' with rfl | hr'
        · exact ⟨b, hf⟩
        · exact ih bs hm r' hr'

theorem splitDate_ok_hasT (s : String) (p : String × String)
    (h : splitDate s = Except.ok p) : 'T' ∈ s.data := by
  by_contra hT
  rw [splitDate] at h
  simp only [jsSplitChar_second, if_neg hT] at h
  cases h

theorem projectRow_ok_inv (headers : List String) (r : RawRecord) (row : Row)
    (h : projectRow headers r = Except.ok row) :
    ∃ j, parseContent r.content = Except.ok j ∧
      ∃ fecha hora, splitDate r.messageDate = Except.ok (fecha, hora) ∧
        row = buildRow r fecha hora headers (extractFlowResponse j) := by
  rw [projectRow] at h
  rcases hp : parseContent r.content with e | j
  · rw [hp] at h
    cases h
  · rw [hp] at h
    rcases hd : splitDate r.messageDate with e | ⟨fecha, hora⟩
    · rw [hd] at h
      cases h
    · rw [hd] at h
      cases h
      exact ⟨j, rfl, fecha, hora, rfl, rfl⟩

theorem exportToExcel_ok_inv (data : List RawRecord) (hs : List String) (rows : List Row)
    (h : exportToExcel data = Except.ok (hs, rows)) :
    ∃ hs0, collectHeaders data = Except.ok hs0 ∧ hs = sortHeaders hs0 ∧
      mapEx (projectRow (sortHeaders hs0)) data = Except.ok rows := by
  rcases hc : collectHeaders data with e | hs0
  · rw [exportToExcel, hc] at h
    cases h
  · rcases hm : mapEx (projectRow (sortHeaders hs0)) data with e | rows'
    · simp only [exportToExcel, hc, hm] at h
      cases h
    · simp only [exportToExcel, hc, hm, Except.ok.injEq, Prod.mk.injEq] at h
      exact ⟨hs0, rfl, h.1.symm, by rw [hm, h.2]⟩

/-- C9: the text normalizer is idempotent and does not alter already
correctly encoded text: `corregirCodificacion` (an encode/decode round
trip in the same encoding) is the identity on every string of Unicode
scalar values, hence `normalize(normalize(x)) = normalize(x)` and
`normalize(x) = x`. -/
theorem c9_normalize_idempotent (x : String) :
    corregirCodificacion (corregirCodificacion x) = corregirCodificacion x ∧
      corregirCodificacion x = x := by
  rw [corregir_eq_id, corregir_eq_id]
  exact ⟨rfl, rfl⟩

/-- C4 counterexample: a batch whose second record's `content` is a string
that is not valid JSON (e.g. `"{not json"`, modelled by `jstr none`).  The
claim says the run completes with the bad record excluded and counted; the
code's `JSON.parse` throw aborts the whole export instead — `exportToExcel`
returns an error and produces no output. -/
theorem c4_counterexample :
    exportToExcel
        [{ messageId := "m1", contactId := "c1", messageDate := "2024-03-01T10:00:00+02:00",
           sendType := "input",
           content := ContentVal.jval (jobj [("eventParameters",
             jobj [("flowResponse", jobj [("color", jarr [Json.str "red"])])])]) },
         { messageId := "m2", contactId := "c2", messageDate := "2024-03-02T10:00:00+02:00",
           sendType := "input", content := ContentVal.jstr none }] =
      Except.error JsError.parseError := rfl

/-- C4 amended: a record whose `content` string is not valid JSON makes the
whole export throw — `JSON.parse` is not guarded, so the record is not
excluded-and-counted and the run does not complete over the remaining
records. -/
theorem c4_parse_failure_aborts (data : List RawRecord) (r : RawRecord) (hr : r ∈ data)
    (hc : r.content = ContentVal.jstr none) :
    ∃ e, exportToExcel data = Except.error e := by
  rcases hx : exportToExcel data with e | ⟨hs, rows⟩
  · exact ⟨e, rfl⟩
  · exfalso
    rcases exportToExcel_ok_inv data hs rows hx with ⟨hs0, hcol, _, _⟩
    rcases collectAux_parse_of_ok data [] hs0 hcol r hr with ⟨j, hj⟩
    rw [hc] at hj
    cases hj

theorem c4_parse_failure_aborts_witness :
    ∃ e, exportToExcel
        [{ messageId := "m2", contactId := "c2", messageDate := "2024-03-02T10:00:00+02:00",
           sendType := "input", content := ContentVal.jstr none }] =
      Except.error e :=
  c4_parse_failure_aborts _ _ (List.mem_singleton.mpr rfl) rfl

/-- C7 counterexample: a record whose `messageDate` contains no `'T'`.  The
claim says projection proceeds with the raw value and the run completes;
in the code `hora` is `undefined` and `hora.split('+')` throws, so the
export errors out and produces no output. -/
theorem c7_counterexample :
    exportToExcel
        [{ messageId := "m4", contactId := "c4", messageDate := "2024-03-04",
           sendType := "input", content := ContentVal.jval (jobj []) }] =
      Except.error JsError.dateError := rfl

/-- C7 amended: a record whose `messageDate` lacks the `'T'` separator makes
projection throw (a `TypeError` on `undefined.split`), aborting the whole
batch run instead of passing the raw value through. -/
theorem c7_malformed_date_aborts (data : List RawRecord) (r : RawRecord) (hr : r ∈ data)
    (hT : 'T' ∉ r.messageDate.data) :
    ∃ e, exportToExcel data = Except.error e := by
  rcases hx : exportToExcel data with e | ⟨hs, rows⟩
  · exact ⟨e, rfl⟩
  · exfalso
    rcases exportToExcel_ok_inv data hs rows hx with ⟨hs0, _, _, hmap⟩
    rcases mapEx_ok_forall _ data rows hmap r hr with ⟨row, hrow⟩
    rcases projectRow_ok_inv _ r row hrow with ⟨j, _, fecha, hora, hd, _⟩
    exact hT (splitDate_ok_hasT r.messageDate (fecha, hora) hd)

theorem c7_malformed_date_aborts_witness :
    ∃ e, exportToExcel
        [{ messageId := "m4", contactId := "c4", messageDate := "2024-03-04",
           sendType := "input", content := ContentVal.jval (jobj []) }] =
      Except.error e :=
  c7_malformed_date_aborts _ _ (List.mem_singleton.mpr rfl) (by decide)

/-- C6 amended: for a `messageDate` containing `'T'`, the date cell is the
text before the first `'T'` and the time cell is the text between the first
and second `'T'` truncated at the first `'+'`.  Only a `'+'`-introduced
suffix is stripped (the claim's "any trailing timezone offset suffix" fails
for negative offsets, see the counterexample). -/
theorem c6_date_split_amended (s : String) (hT : 'T' ∈ s.data) :
    splitDate s = Except.ok
      (String.mk (s.data.takeWhile (fun c => c ≠ 'T')),
       String.mk ((((s.data.dropWhile (fun c => c ≠ 'T')).drop 1).takeWhile
         (fun c => c ≠ 'T')).takeWhile (fun c => c ≠ '+'))) := by
  rw [splitDate]
  simp only [jsSplitChar_second, if_pos hT, jsSplitChar_head]

theorem c6_date_split_amended_witness :
    'T' ∈ ("2024-03-01T10:00:00+02:00" : String).data ∧
      splitDate "2024-03-01T10:00:00+02:00" = Except.ok ("2024-03-01", "10:00:00") := by
  refine ⟨by decide, ?_⟩
  rw [c6_date_split_amended "2024-03-01T10:00:00+02:00" (by decide)]
  rfl

/-- C6 counterexample: for the negative-offset date
`"2024-03-01T10:00:00-05:00"` the code's time cell keeps the offset
(`hora.split('+')` only strips from a `'+'`), while the claim's "trailing
timezone offset suffix stripped" demands `"10:00:00"`. -/
theorem c6_counterexample :
    splitDate "2024-03-01T10:00:00-05:00" = Except.ok ("2024-03-01", "10:00:00-05:00") ∧
      specStripTZ "10:00:00-05:00" = "10:00:00" ∧
      ("10:00:00-05:00" : String) ≠ "10:00:00" := by
  refine ⟨rfl, by decide, by decide⟩

/-- C5 amended: for a scalar column whose key contains no `" | "`, the cell
is empty when the key is absent or its value is falsy, and is the JS
stringification of the value when it is truthy — including a truthy list,
whose cell is the comma-joined `toString` of the array rather than the
empty cell the claim demands (see the counterexample); the normalizer is
the identity, so the "normalized scalar value" is the stringified value. -/
theorem c5_scalar_cell_amended (fr : List (String × Json)) (k : String)
    (hk : hasSep k.data = false) :
    (cellWrite fr k).1 = k ∧
      (fr.lookup k = none → (cellWrite fr k).2 = "") ∧
      (∀ v, fr.lookup k = some v → jsTruthy v = false → (cellWrite fr k).2 = "") ∧
      (∀ v, fr.lookup k = some v → jsTruthy v = true → (cellWrite fr k).2 = jsToString v) := by
  have hcw : cellWrite fr k =
      (k, match fr.lookup k with
        | some v => if jsTruthy v then corregirCodificacion (jsToString v) else ""
        | none => "") := by
    rw [cellWrite]
    simp only [corregir_eq_id, splitPipe_no_sep k.data hk, List.map_cons, List.map_nil,
      String.mk_data]
  refine ⟨by rw [hcw], ?_, ?_, ?_⟩
  · intro h
    rw [hcw]
    simp [h]
  · intro v hv htr
    rw [hcw]
    simp [hv, htr]
  · intro v hv htr
    rw [hcw]
    simp [hv, htr, corregir_eq_id]

theorem c5_scalar_cell_amended_witness :
    hasSep ("status" : String).data = false ∧
      (cellWrite [("status", Json.str "ok")] "status").1 = "status" ∧
      (cellWrite [("status", Json.str "ok")] "status").2 = jsToString (Json.str "ok") :=
  ⟨by decide,
    (c5_scalar_cell_amended [("status", Json.str "ok")] "status" (by decide)).1,
    (c5_scalar_cell_amended [("status", Json.str "ok")] "status" (by decide)).2.2.2
      (Json.str "ok") rfl rfl⟩

/-- C5 counterexample: the flow-response map holds a list under `status`
(the scalar/list type-mismatch case); the claim demands an empty cell but
the code emits the comma-joined stringification `"ok,pending"` — a
non-empty array is truthy, so `corregirCodificacion(flowResponse[k])`
coerces it to a string instead of skipping it. -/
theorem c5_counterexample :
    List.lookup "status" [("status", jarr [Json.str "ok", Json.str "pending"])] =
        some (jarr [Json.str "ok", Json.str "pending"]) ∧
      (cellWrite [("status", jarr [Json.str "ok", Json.str "pending"])] "status").2 =
        "ok,pending" ∧
      ("ok,pending" : String) ≠ "" := ⟨rfl, rfl, by decide⟩

/-- C3 amended: for an indicator column built from a key and value that are
free of the separator `" | "` (and a non-empty value), the cell is written
under the row key equal to the value alone, and it is `"X"` exactly when
the flow-response list under the key contains the value.  When the key or
value embeds the separator, the header string is re-split incorrectly and
the equivalence fails (see the counterexample). -/
theorem c3_indicator_cell_amended (fr : List (String × Json)) (k v : String)
    (hk : hasSep (k.data ++ [' ']) = false) (hv : hasSep v.data = false) (hne : v ≠ "") :
    (cellWrite fr (k ++ " | " ++ v)).1 = v ∧
      ((cellWrite fr (k ++ " | " ++ v)).2 = "X" ↔
        ∃ xs, fr.lookup k = some (Json.arr xs) ∧ Json.str v ∈ xs.toList) := by
  have hdata : (corregirCodificacion (k ++ " | " ++ v)).data =
      k.data ++ ' ' :: '|' :: ' ' :: v.data := by
    rw [corregir_eq_id]
    simp [String.data_append]
  have hcw : cellWrite fr (k ++ " | " ++ v) =
      (v, match fr.lookup k with
        | some (Json.arr xs) => if jsIncludesStr xs.toList v then "X" else ""
        | _ => "") := by
    rw [cellWrite]
    rw [hdata, splitPipe_sep_append k.data v.data hk, splitPipe_no_sep v.data hv]
    simp only [List.map_cons, List.map_nil, String.mk_data]
    rw [if_pos hne]
  have hcell : (cellWrite fr (k ++ " | " ++ v)).2 =
      (match fr.lookup k with
        | some (Json.arr xs) => if jsIncludesStr xs.toList v then "X" else ""
        | _ => "") := by
    rw [hcw]
  refine ⟨by rw [hcw], ?_⟩
  rcases hlk : fr.lookup k with _ | w
  · have hc2 : (cellWrite fr (k ++ " | " ++ v)).2 = "" := by rw [hcell, hlk]
    rw [hc2]
    constructor
    · intro h
      exact absurd h (by decide)
    · rintro ⟨xs', he, _⟩
      exact Option.noConfusion he
  · cases w with
    | arr xs =>
      have hc2 : (cellWrite fr (k ++ " | " ++ v)).2 =
          (if jsIncludesStr xs.toList v then "X" else "") := by rw [hcell, hlk]
      rw [hc2]
      by_cases hin : jsIncludesStr xs.toList v = true
      · rw [if_pos hin]
        constructor
        · intro _
          exact ⟨xs, rfl, (jsIncludesStr_iff xs.toList v).mp hin⟩
        · intro _
          rfl
      · rw [if_neg hin]
        constructor
        · intro h
          exact absurd h (by decide)
        · rintro ⟨xs', he, hm⟩
          simp only [Option.some.injEq, Json.arr.injEq] at he
          subst he
          exact absurd ((jsIncludesStr_iff xs.toList v).mpr hm) hin
    | null =>
      have hc2 : (cellWrite fr (k ++ " | " ++ v)).2 = "" := by rw [hcell, hlk]
      rw [hc2]
      constructor
      · intro h
        exact absurd h (by decide)
      · rintro ⟨xs', he, _⟩
        simp at he
    | bool b =>
      have hc2 : (cellWrite fr (k ++ " | " ++ v)).2 = "" := by rw [hcell, hlk]
      rw [hc2]
      constructor
      · intro h
        exact absurd h (by decide)
      · rintro ⟨xs', he, _⟩
        simp at he
    | num n =>
      have hc2 : (cellWrite fr (k ++ " | " ++ v)).2 = "" := by rw [hcell, hlk]
      rw [hc2]
      constructor
      · intro h
        exact absurd h (by decide)
      · rintro ⟨xs', he, _⟩
        simp at he
    | str s =>
      have hc2 : (cellWrite fr (k ++ " | " ++ v)).2 = "" := by rw [hcell, hlk]
      rw [hc2]
      constructor
      · intro h
        exact absurd h (by decide)
      · rintro ⟨xs', he, _⟩
        simp at he
    | obj fs =>
      have hc2 : (cellWrite fr (k ++ " | " ++ v)).2 = "" := by rw [hcell, hlk]
      rw [hc2]
      constructor
      · intro h
        exact absurd h (by decide)
      · rintro ⟨xs', he, _⟩
        simp at he

theorem c3_indicator_cell_amended_witness :
    (hasSep (("color" : String).data ++ [' ']) = false ∧
      hasSep ("red" : String).data = false ∧ ("red" : String) ≠ "") ∧
      ((cellWrite [("color", jarr [Json.str "red"])] ("color" ++ " | " ++ "red")).1 = "red" ∧
        ((cellWrite [("color", jarr [Json.str "red"])] ("color" ++ " | " ++ "red")).2 = "X" ↔
          ∃ xs, List.lookup "color" [("color", jarr [Json.str "red"])] =
              some (Json.arr xs) ∧ Json.str "red" ∈ xs.toList)) :=
  ⟨⟨by decide, by decide, by decide⟩,
    c3_indicator_cell_amended [("color", jarr [Json.str "red"])] "color" "red"
      (by decide) (by decide) (by decide)⟩

/-- C3 counterexample: the record's list under key `a` contains the value
`"b | c"` (which embeds the separator), so the claim demands an `"X"` cell
for `Indicator(a, "b | c")`; the code re-splits the header `"a | b | c"`
into base key `a` and item `b`, finds no `"b"` in the list, and emits the
empty cell. -/
theorem c3_counterexample :
    List.lookup "a" [("a", jarr [Json.str "b | c"])] = some (jarr [Json.str "b | c"]) ∧
      Json.str "b | c" ∈ (JsonList.ofList [Json.str "b | c"]).toList ∧
      (cellWrite [("a", jarr [Json.str "b | c"])] ("a" ++ " | " ++ "b | c")).2 = "" ∧
      ("" : String) ≠ "X" :=
  ⟨rfl, List.mem_singleton.mpr rfl, rfl, by decide⟩

/-- C1 amended: the key set of a projected row is the four fixed keys
(`messageId`, `telefono`, `fecha`, `hora`) together with, for each catalog
header, the row key the per-header write derives from it — the base key for
a scalar header, the item segment alone for an indicator header.  The
catalog's own header strings (`"key | item"`) are not row keys, so the
original key-set equality fails (see the counterexample), and distinct
indicator columns sharing an item value collapse onto one key. -/
theorem c1_row_keys_amended (headers : List String) (r : RawRecord) (row : Row) (j : Json)
    (hj : parseContent r.content = Except.ok j)
    (hrow : projectRow headers r = Except.ok row) (a : String) :
    a ∈ row.map Prod.fst ↔
      a ∈ ["messageId", "telefono", "fecha", "hora"] ∨
        ∃ h ∈ headers, (cellWrite (extractFlowResponse j) h).1 = a := by
  rcases projectRow_ok_inv headers r row hrow with ⟨j', hj', fecha, hora, hd, hbuild⟩
  rw [hj] at hj'
  cases hj'
  rw [hbuild]
  exact buildRow_keys r fecha hora headers (extractFlowResponse j) a

/-- C1 counterexample: for the one-record batch with flow response
`color: ["red"]`, the catalog contains the header `"color | red"` but the
produced row has no such key (its indicator cell is keyed `"red"`), so the
row's key set does not equal the catalog's column set plus fixed columns. -/
theorem c1_counterexample :
    exportToExcel [⟨"m1", "c1", "2024-03-01T10:00:00+02:00", "input",
        ContentVal.jval (jobj [("eventParameters", jobj [("flowResponse",
          jobj [("color", jarr [Json.str "red"])])])])⟩] =
      Except.ok (["color", "color | red"],
        [[("messageId", "m1"), ("telefono", "c1"), ("fecha", "2024-03-01"),
          ("hora", "10:00:00"), ("color", "red"), ("red", "X")]]) ∧
      "color | red" ∈ ["color", "color | red"] ∧
      "color | red" ∉ ([("messageId", "m1"), ("telefono", "c1"), ("fecha", "2024-03-01"),
        ("hora", "10:00:00"), ("color", "red"), ("red", "X")] : Row).map Prod.fst :=
  ⟨rfl, by decide, by decide⟩

theorem c1_row_keys_amended_witness :
    ("red" : String) ∈ ([("messageId", "m1"), ("telefono", "c1"), ("fecha", "2024-03-01"),
        ("hora", "10:00:00"), ("color", "red"), ("red", "X")] : Row).map Prod.fst ↔
      ("red" : String) ∈ (["messageId", "telefono", "fecha", "hora"] : List String) ∨
        ∃ h ∈ (["color", "color | red"] : List String),
          (cellWrite (extractFlowResponse (jobj [("eventParameters", jobj [("flowResponse",
            jobj [("color", jarr [Json.str "red"])])])])) h).1 = "red" :=
  c1_row_keys_amended ["color", "color | red"]
    ⟨"m1", "c1", "2024-03-01T10:00:00+02:00", "input",
      ContentVal.jval (jobj [("eventParameters", jobj [("flowResponse",
        jobj [("color", jarr [Json.str "red"])])])])⟩
    [("messageId", "m1"), ("telefono", "c1"), ("fecha", "2024-03-01"),
      ("hora", "10:00:00"), ("color", "red"), ("red", "X")]
    (jobj [("eventParameters", jobj [("flowResponse",
      jobj [("color", jarr [Json.str "red"])])])])
    rfl rfl "red"

theorem mem_rowHeaders_of (fr : List (String × Json)) (k : String) (v : Json)
    (hkv : (k, v) ∈ fr) (x : String) (hx : x ∈ fieldHeaders k v) : x ∈ rowHeaders fr := by
  induction fr with
  | nil => cases hkv
  | cons p fr' ih =>
    have hstep : rowHeaders (p :: fr') = fieldHeaders p.1 p.2 ++ rowHeaders fr' := rfl
    rw [hstep, List.mem_append]
    rcases List.mem_cons.mp hkv with rfl | hkv'
    · exact Or.inl hx
    · exact Or.inr (ih hkv')

/-- C2: for every batch whose discovery pass succeeds, every record of it,
every key holding a list in that record's flow-response map and every item
of that list, the sorted catalog contains the indicator header
`` `${key} | ${item}` `` exactly once — the `Set` accumulation deduplicates
across records and the sort preserves multiplicity. -/
theorem c2_catalog_indicator_once (data : List RawRecord) (hs0 : List String)
    (hcol : collectHeaders data = Except.ok hs0) (r : RawRecord) (hr : r ∈ data)
    (j : Json) (hj : parseContent r.content = Except.ok j)
    (k : String) (xs : JsonList) (hkv : (k, Json.arr xs) ∈ extractFlowResponse j)
    (item : Json) (hitem : item ∈ xs.toList) :
    (sortHeaders hs0).count (k ++ " | " ++ jsToString item) = 1 := by
  have hfield : (k ++ " | " ++ jsToString item) ∈ fieldHeaders k (Json.arr xs) := by
    rw [fieldHeaders]
    exact List.mem_cons_of_mem _
      (List.mem_map_of_mem (fun item => k ++ " | " ++ jsToString item) hitem)
  have hmem : (k ++ " | " ++ jsToString item) ∈ rowHeaders (extractFlowResponse j) :=
    mem_rowHeaders_of _ k (Json.arr xs) hkv _ hfield
  have hin : (k ++ " | " ++ jsToString item) ∈ hs0 :=
    (collectAux_mem data [] hs0 hcol _).mpr (Or.inr ⟨r, hr, j, hj, hmem⟩)
  have hnd : hs0.Nodup := collectAux_nodup data [] hs0 List.nodup_nil hcol
  rw [(sortHeaders_perm hs0).count_eq]
  exact List.count_eq_one_of_mem hnd hin

theorem c2_catalog_indicator_once_witness :
    (sortHeaders ["color", "color | red"]).count
      ("color" ++ " | " ++ jsToString (Json.str "red")) = 1 :=
  c2_catalog_indicator_once
    [⟨"m1", "c1", "2024-03-01T10:00:00+02:00", "input",
      ContentVal.jval (jobj [("eventParameters", jobj [("flowResponse",
        jobj [("color", jarr [Json.str "red"])])])])⟩]
    ["color", "color | red"] rfl
    ⟨"m1", "c1", "2024-03-01T10:00:00+02:00", "input",
      ContentVal.jval (jobj [("eventParameters", jobj [("flowResponse",
        jobj [("color", jarr [Json.str "red"])])])])⟩
    (List.mem_singleton.mpr rfl)
    (jobj [("eventParameters", jobj [("flowResponse",
      jobj [("color", jarr [Json.str "red"])])])])
    rfl "color" (JsonList.ofList [Json.str "red"])
    (List.mem_singleton.mpr rfl)
    (Json.str "red") (List.mem_singleton.mpr rfl)

/-- C8: discovery plus projection is order-independent on records — for any
permutation of a batch whose discovery succeeds, discovery on the permuted
batch succeeds, the sorted catalogs coincide, and the projection of any
individual record against the two catalogs is identical. -/
theorem c8_order_independent (data data' : List RawRecord) (hperm : data.Perm data')
    (hs0 : List String) (hcol : collectHeaders data = Except.ok hs0) :
    ∃ hs1, collectHeaders data' = Except.ok hs1 ∧
      sortHeaders hs1 = sortHeaders hs0 ∧
      ∀ r, projectRow (sortHeaders hs1) r = projectRow (sortHeaders hs0) r := by
  have hparse : ∀ r ∈ data', ∃ j, parseContent r.content = Except.ok j := fun r hr =>
    collectAux_parse_of_ok data [] hs0 hcol r (hperm.mem_iff.mpr hr)
  rcases collectAux_ok_of_parse data' [] hparse with ⟨hs1, hcol'⟩
  have hmemiff : ∀ a, a ∈ hs1 ↔ a ∈ hs0 := by
    intro a
    rw [collectAux_mem data' [] hs1 hcol' a, collectAux_mem data [] hs0 hcol a]
    simp only [List.not_mem_nil, false_or]
    constructor
    · rintro ⟨r, hr, hrest⟩
      exact ⟨r, hperm.mem_iff.mpr hr, hrest⟩
    · rintro ⟨r, hr, hrest⟩
      exact ⟨r, hperm.mem_iff.mp hr, hrest⟩
  have hnd1 : hs1.Nodup := collectAux_nodup data' [] hs1 List.nodup_nil hcol'
  have hnd0 : hs0.Nodup := collectAux_nodup data [] hs0 List.nodup_nil hcol
  have hp : hs1.Perm hs0 := (List.perm_ext_iff_of_nodup hnd1 hnd0).mpr hmemiff
  refine ⟨hs1, hcol', sortHeaders_eq_of_perm hs1 hs0 hp, ?_⟩
  intro r
  rw [sortHeaders_eq_of_perm hs1 hs0 hp]

theorem c8_order_independent_witness :
    ∃ hs1, collectHeaders
        [⟨"m2", "c2", "2024-03-02T11:00:00+02:00", "input",
          ContentVal.jval (jobj [("eventParameters", jobj [("flowResponse",
            jobj [("status", Json.str "ok")])])])⟩,
         ⟨"m1", "c1", "2024-03-01T10:00:00+02:00", "input",
          ContentVal.jval (jobj [("eventParameters", jobj [("flowResponse",
            jobj [("color", jarr [Json.str "red"])])])])⟩] = Except.ok hs1 ∧
      sortHeaders hs1 = sortHeaders ["color", "color | red", "status"] ∧
      ∀ r, projectRow (sortHeaders hs1) r =
        projectRow (sortHeaders ["color", "color | red", "status"]) r :=
  c8_order_independent
    [⟨"m1", "c1", "2024-03-01T10:00:00+02:00", "input",
      ContentVal.jval (jobj [("eventParameters", jobj [("flowResponse",
        jobj [("color", jarr [Json.str "red"])])])])⟩,
     ⟨"m2", "c2", "2024-03-02T11:00:00+02:00", "input",
      ContentVal.jval (jobj [("eventParameters", jobj [("flowResponse",
        jobj [("status", Json.str "ok")])])])⟩]
    [⟨"m2", "c2", "2024-03-02T11:00:00+02:00", "input",
      ContentVal.jval (jobj [("eventParameters", jobj [("flowResponse",
        jobj [("status", Json.str "ok")])])])⟩,
     ⟨"m1", "c1", "2024-03-01T10:00:00+02:00", "input",
      ContentVal.jval (jobj [("eventParameters", jobj [("flowResponse",
        jobj [("color", jarr [Json.str "red"])])])])⟩]
    (List.Perm.swap _ _ _)
    ["color", "color | red", "status"] rfl
/-- C10: in the free-text export, the output rows are exactly the projected
rows passing the two filters, and a projected row passes them if and only
if the record's sendType is `"input"` and its extracted body is a string
containing at least one non-whitespace character — every other record is
silently dropped. -/
theorem c10_export2_filter :
    (∀ data out, exportToExcel2 data = Except.ok out →
      ∃ rows, mapEx projectRow2 data = Except.ok rows ∧
        out = (rows.filter keep1).filter keep2) ∧
    (∀ r row, projectRow2 r = Except.ok row →
      ((keep1 row && keep2 row) = true ↔
        (r.sendType = "input" ∧ ∃ j s, parseContent r.content = Except.ok j ∧
          extractBody j = Json.str s ∧
          s.data.any (fun c => ! jsWhitespaceChar c) = true))) := by
  constructor
  · intro data out h
    rcases hm : mapEx projectRow2 data with e | rows
    · rw [exportToExcel2, hm] at h
      cases h
    · rw [exportToExcel2, hm] at h
      cases h
      exact ⟨rows, rfl, rfl⟩
  · intro r row h
    rcases hp : parseContent r.content with e | j
    · rw [projectRow2, hp] at h
      cases h
    · rcases hd : splitDate r.messageDate with e | ⟨fecha, hora⟩
      · simp only [projectRow2, hp, hd] at h
        exact Except.noConfusion h
      · simp only [projectRow2, hp, hd, Except.ok.injEq] at h
        subst h
        rcases hext : extractBody j with _ | b | n | s | xs | fs
        · simp [keep1, keep2, hext]
        · simp [keep1, keep2, hext]
        · simp [keep1, keep2, hext]
        · simp only [keep1, keep2, hext, corregir_eq_id]
          constructor
          · intro hb
            simp only [Bool.and_eq_true, beq_iff_eq] at hb
            refine ⟨hb.1.2, j, s, rfl, hext, ?_⟩
            have hreg := hb.1.1
            simpa [regexSTest, jsToString] using hreg
          · rintro ⟨hsend, j', s', hj', hext', hany⟩
            injection hj' with hjj
            subst hjj
            rw [hext] at hext'
            injection hext' with hss
            subst hss
            simp only [Bool.and_eq_true, beq_iff_eq]
            refine ⟨⟨?_, hsend⟩, trivial⟩
            simpa [regexSTest, jsToString] using hany
        · simp [keep1, keep2, hext]
        · simp [keep1, keep2, hext]

theorem c10_export2_filter_witness :
    (∃ rows, mapEx projectRow2
        [⟨"m5", "c5", "2024-03-05T09:00:00+02:00", "input",
          ContentVal.jval (jobj [("body", Json.str "hello")])⟩] = Except.ok rows ∧
      [⟨"m5", "c5", "2024-03-05", "09:00:00", Json.str "hello", "input"⟩] =
        (rows.filter keep1).filter keep2) ∧
    ((keep1 ⟨"m5", "c5", "2024-03-05", "09:00:00", Json.str "hello", "input"⟩ &&
        keep2 ⟨"m5", "c5", "2024-03-05", "09:00:00", Json.str "hello", "input"⟩) = true ↔
      (("input" : String) = "input" ∧
        ∃ j s, parseContent (ContentVal.jval (jobj [("body", Json.str "hello")])) =
            Except.ok j ∧ extractBody j = Json.str s ∧
          s.data.any (fun c => ! jsWhitespaceChar c) = true)) :=
  ⟨c10_export2_filter.1
      [⟨"m5", "c5", "2024-03-05T09:00:00+02:00", "input",
        ContentVal.jval (jobj [("body", Json.str "hello")])⟩]
      [⟨"m5", "c5", "2024-03-05", "09:00:00", Json.str "hello", "input"⟩] rfl,
    c10_export2_filter.2
      ⟨"m5", "c5", "2024-03-05T09:00:00+02:00", "input",
        ContentVal.jval (jobj [("body", Json.str "hello")])⟩
      ⟨"m5", "c5", "2024-03-05", "09:00:00", Json.str "hello", "input"⟩ rfl⟩
